import Mathlib

/-!
Verification of the JIT memory-planning pass
(`torch/csrc/jit/passes/memory_planning.cpp`).

The C++ code is shallowly embedded: `int64_t` becomes `Int` (the code's own
`valid_add` / `valid_sub` guards are modelled exactly, and every theorem that
depends on staying inside the signed 64-bit range carries explicit bounds),
`TORCH_INTERNAL_ASSERT` / `TORCH_CHECK` failures become `none` of an `Option`
result, and the standard containers become lists (a `std::map` becomes a
sorted association list whose `insert` keeps the existing entry, exactly as
`std::map::insert` does).

Types declared outside the repository (`LiveRange`, `FrameNodeId`, the graph
IR) are modelled from the specification's data-model section; their fields
keep the source names where Lean permits (`end` is a keyword, so the second
`LiveRange` field is called `endp`).
-/

/-- Signed 64-bit maximum, `std::numeric_limits<int64_t>::max()`. -/
def int64Max : Int := 9223372036854775807

/-- Signed 64-bit minimum, `std::numeric_limits<int64_t>::min()`. -/
def int64Min : Int := -9223372036854775808

/-- `valid_add(a, b)` from memory_planning.cpp lines 15-22: true when `a + b`
does not overflow signed 64-bit arithmetic. -/
def valid_add (a b : Int) : Bool :=
  if ((b > 0) ∧ (a > int64Max - b)) ∨ ((b < 0) ∧ (a < int64Min - b)) then false else true

/-- `valid_sub(a, b)` from memory_planning.cpp lines 24-31: true when `a - b`
does not overflow signed 64-bit arithmetic. -/
def valid_sub (a b : Int) : Bool :=
  if ((b < 0) ∧ (a > int64Max + b)) ∨ ((b > 0) ∧ (a < int64Min + b)) then false else true

/-- `intersectArea(a, b, c, d)` from memory_planning.cpp lines 33-52.
The two `TORCH_INTERNAL_ASSERT`s (`a <= b`, `c <= d`) are modelled as the
`none` branch.  Note the source's final `else` branch returns `0` for every
non-overflow case with `outer <= l1 + l2`; no branch of the source returns
`-1` other than the two overflow guards. -/
def intersectArea (a b c d : Int) : Option Int :=
  if a ≤ b ∧ c ≤ d then
    let outer := max b d - min a c
    let l1 := b - a
    let l2 := d - c
    some (if valid_add l1 l2 = false then -1
          else if valid_sub outer (l1 + l2) = false then -1
          else if outer - (l1 + l2) > 0 then 1
          else 0)
  else none

/-- `LiveRange`: closed interval of event timestamps (data model of the spec;
the struct itself lives outside this repository).  `end` is a Lean keyword,
hence `endp`. -/
structure LiveRange where
  begin : Int
  endp : Int
deriving DecidableEq

/-- `MemRegion` from memory_planning.h. -/
structure MemRegion where
  offset : Int
  size : Int
deriving DecidableEq

/-- `MemAllocation` from memory_planning.h: a live range paired with the
region assigned to it. -/
structure MemAllocation where
  lvr : LiveRange
  reg : MemRegion
deriving DecidableEq

/-- `intersectLiveRange` from memory_planning.cpp lines 54-56:
`intersectArea(...) <= 0`. -/
def intersectLiveRange (lvr1 lvr2 : LiveRange) : Option Bool :=
  (intersectArea lvr1.begin lvr1.endp lvr2.begin lvr2.endp).map (fun r => decide (r ≤ 0))

/-- `intersectMemRegion` from memory_planning.cpp lines 58-65:
`intersectArea(offset, offset + size, ...) < 0`. -/
def intersectMemRegion (reg1 reg2 : MemRegion) : Option Bool :=
  (intersectArea reg1.offset (reg1.offset + reg1.size)
      reg2.offset (reg2.offset + reg2.size)).map (fun r => decide (r < 0))

/-- `intersectAllocs` from memory_planning.cpp lines 344-347; `&&`
short-circuits, so `intersectMemRegion` only runs when the live ranges
intersect. -/
def intersectAllocs (m1 m2 : MemAllocation) : Option Bool :=
  match intersectLiveRange m1.lvr m2.lvr with
  | none => none
  | some t => if t then intersectMemRegion m1.reg m2.reg else some false

/-- Inner loop of `validateAllocations` (memory_planning.cpp lines 351-359):
scan the whole vector against a fixed `alloc1`, skipping value-equal entries,
and answer `false` at the first conflicting pair. -/
def validateInner (a1 : MemAllocation) : List MemAllocation → Option Bool
  | [] => some true
  | a2 :: rest =>
    if a1 = a2 then validateInner a1 rest
    else
      match intersectAllocs a1 a2 with
      | none => none
      | some true => some false
      | some false => validateInner a1 rest

/-- Outer loop of `validateAllocations` (memory_planning.cpp lines 350-360). -/
def validateOuter (allocations : List MemAllocation) : List MemAllocation → Option Bool
  | [] => some true
  | a1 :: rest =>
    match validateInner a1 allocations with
    | none => none
    | some true => validateOuter allocations rest
    | some false => some false

/-- `validateAllocations` from memory_planning.cpp lines 349-362. -/
def validateAllocations (allocations : List MemAllocation) : Option Bool :=
  validateOuter allocations allocations

/-- C4: code bug witness.  For `a = 0, b = 10, c = 0, d = 10` we have
`outer = 10 < 20 = L` with no overflow anywhere, so the claim (and the spec's
three-valued primitive) require the answer `-1` (overlap); the source's final
`else` branch returns `0` instead.  The same evaluation shows the comment on
that branch (single-point overlap) misdescribes it. -/
theorem intersectArea_returns_zero_on_proper_overlap :
    intersectArea 0 10 0 10 = some 0 ∧ (0 : Int) ≠ -1 := by
  constructor
  · decide
  · decide

/-- C5: code bug witness.  The regions `{offset 0, size 128}` and
`{offset 0, size 128}` coincide (a 128-byte overlap, far more than a single
point), yet `intersectMemRegion` answers `false`, because `intersectArea`
only returns a negative answer through its overflow guards. -/
theorem intersectMemRegion_false_on_full_overlap :
    intersectMemRegion ⟨0, 128⟩ ⟨0, 128⟩ = some false ∧
    intersectMemRegion ⟨0, 128⟩ ⟨64, 128⟩ = some false := by
  constructor
  · decide
  · decide

/-- C10: `validateAllocations` skips pairs by value equality of
`(live range, region)`, not by position.  A vector holding the same
allocation twice is reported valid even though the two copies coincide in
time and space — here the copies even have `intersectAllocs` true of them
(their sizes are large enough that the overflow guard fires), yet the
`alloc1 == alloc2` test skips the pair. -/
theorem validateAllocations_accepts_duplicate_allocations :
    validateAllocations [⟨⟨0, 10⟩, ⟨0, 4611686018427387904⟩⟩,
                         ⟨⟨0, 10⟩, ⟨0, 4611686018427387904⟩⟩] = some true ∧
    intersectAllocs ⟨⟨0, 10⟩, ⟨0, 4611686018427387904⟩⟩
                    ⟨⟨0, 10⟩, ⟨0, 4611686018427387904⟩⟩ = some true := by
  constructor
  · decide
  · decide

/-- When both interval arguments are ordered, `intersectArea` passes its
assertions and produces an answer. -/
theorem intersectArea_isSome {a b c d : Int} (h1 : a ≤ b) (h2 : c ≤ d) :
    ∃ r, intersectArea a b c d = some r := by
  rw [intersectArea, if_pos ⟨h1, h2⟩]
  exact ⟨_, rfl⟩

theorem intersectLiveRange_isSome {lvr1 lvr2 : LiveRange}
    (h1 : lvr1.begin ≤ lvr1.endp) (h2 : lvr2.begin ≤ lvr2.endp) :
    ∃ t, intersectLiveRange lvr1 lvr2 = some t := by
  obtain ⟨r, hr⟩ := intersectArea_isSome h1 h2
  exact ⟨_, by rw [intersectLiveRange, hr]; rfl⟩

theorem intersectMemRegion_isSome {reg1 reg2 : MemRegion}
    (h1 : 0 ≤ reg1.size) (h2 : 0 ≤ reg2.size) :
    ∃ t, intersectMemRegion reg1 reg2 = some t := by
  obtain ⟨r, hr⟩ := intersectArea_isSome
    (by omega : reg1.offset ≤ reg1.offset + reg1.size)
    (by omega : reg2.offset ≤ reg2.offset + reg2.size)
  exact ⟨_, by rw [intersectMemRegion, hr]; rfl⟩

theorem intersectAllocs_isSome {m1 m2 : MemAllocation}
    (h1 : m1.lvr.begin ≤ m1.lvr.endp) (h2 : m2.lvr.begin ≤ m2.lvr.endp)
    (h3 : 0 ≤ m1.reg.size) (h4 : 0 ≤ m2.reg.size) :
    ∃ t, intersectAllocs m1 m2 = some t := by
  obtain ⟨t, ht⟩ := intersectLiveRange_isSome h1 h2
  cases t with
  | false => exact ⟨false, by simp [intersectAllocs, ht]⟩
  | true =>
    obtain ⟨u, hu⟩ := intersectMemRegion_isSome h3 h4
    exact ⟨u, by simp [intersectAllocs, ht, hu]⟩

/-- `intersectAllocs` answers `true` exactly when both component predicates
answer `true` (the short-circuit cannot hide a `true` answer). -/
theorem intersectAllocs_eq_some_true_iff {m1 m2 : MemAllocation} :
    intersectAllocs m1 m2 = some true ↔
      intersectLiveRange m1.lvr m2.lvr = some true ∧
      intersectMemRegion m1.reg m2.reg = some true := by
  rw [intersectAllocs]
  rcases h : intersectLiveRange m1.lvr m2.lvr with _ | t
  · simp
  · cases t <;> simp

theorem validateInner_eq_true_iff (a1 : MemAllocation) (l : List MemAllocation)
    (ha : a1.lvr.begin ≤ a1.lvr.endp ∧ 0 ≤ a1.reg.size)
    (hl : ∀ x ∈ l, x.lvr.begin ≤ x.lvr.endp ∧ 0 ≤ x.reg.size) :
    validateInner a1 l = some true ↔
      ∀ b ∈ l, a1 ≠ b → ¬ intersectAllocs a1 b = some true := by
  induction l with
  | nil => simp [validateInner]
  | cons a2 rest ih =>
    have hrest := fun x hx => hl x (List.mem_cons_of_mem _ hx)
    have ha2 := hl a2 (List.mem_cons_self _ _)
    rw [validateInner]
    by_cases he : a1 = a2
    · rw [if_pos he, ih hrest]
      constructor
      · intro h b hb hne
        rcases List.mem_cons.mp hb with rfl | hb'
        · exact absurd he hne
        · exact h b hb' hne
      · intro h b hb hne
        exact h b (List.mem_cons_of_mem _ hb) hne
    · rw [if_neg he]
      obtain ⟨t, ht⟩ := intersectAllocs_isSome ha.1 ha2.1 ha.2 ha2.2
      rw [ht]
      cases t with
      | false =>
        rw [ih hrest]
        constructor
        · intro h b hb hne
          rcases List.mem_cons.mp hb with rfl | hb'
          · rw [ht]; simp
          · exact h b hb' hne
        · intro h b hb hne
          exact h b (List.mem_cons_of_mem _ hb) hne
      | true =>
        simp only [show (some false : Option Bool) ≠ some true by simp, false_iff]
        intro h
        exact h a2 (List.mem_cons_self _ _) he ht

theorem validateInner_isSome (a1 : MemAllocation) (l : List MemAllocation)
    (ha : a1.lvr.begin ≤ a1.lvr.endp ∧ 0 ≤ a1.reg.size)
    (hl : ∀ x ∈ l, x.lvr.begin ≤ x.lvr.endp ∧ 0 ≤ x.reg.size) :
    ∃ t, validateInner a1 l = some t := by
  induction l with
  | nil => exact ⟨true, rfl⟩
  | cons a2 rest ih =>
    have h2 := hl a2 (List.mem_cons_self _ _)
    have hrest := fun x hx => hl x (List.mem_cons_of_mem _ hx)
    rw [validateInner]
    by_cases he : a1 = a2
    · rw [if_pos he]; exact ih hrest
    · rw [if_neg he]
      obtain ⟨u, hu⟩ := intersectAllocs_isSome ha.1 h2.1 ha.2 h2.2
      rw [hu]
      cases u with
      | false => exact ih hrest
      | true => exact ⟨false, rfl⟩

theorem validateOuter_eq_true_iff (all l : List MemAllocation)
    (hall : ∀ x ∈ all, x.lvr.begin ≤ x.lvr.endp ∧ 0 ≤ x.reg.size)
    (hl : ∀ x ∈ l, x.lvr.begin ≤ x.lvr.endp ∧ 0 ≤ x.reg.size) :
    validateOuter all l = some true ↔
      ∀ a ∈ l, ∀ b ∈ all, a ≠ b → ¬ intersectAllocs a b = some true := by
  induction l with
  | nil => simp [validateOuter]
  | cons a1 rest ih =>
    have hrest := fun x hx => hl x (List.mem_cons_of_mem _ hx)
    have ha1 := hl a1 (List.mem_cons_self _ _)
    obtain ⟨t, hv⟩ := validateInner_isSome a1 all ha1 hall
    rw [validateOuter, hv]
    cases t with
    | true =>
      show validateOuter all rest = some true ↔ _
      rw [ih hrest]
      rw [validateInner_eq_true_iff a1 all ha1 hall] at hv
      constructor
      · intro h a hment b hb hne
        rcases List.mem_cons.mp hment with rfl | ha'
        · exact hv b hb hne
        · exact h a ha' b hb hne
      · intro h a hment b hb hne
        exact h a (List.mem_cons_of_mem _ hment) b hb hne
    | false =>
      show (some false : Option Bool) = some true ↔ _
      have hnot : ¬ ∀ b ∈ all, a1 ≠ b → ¬ intersectAllocs a1 b = some true := by
        intro hforall
        have := (validateInner_eq_true_iff a1 all ha1 hall).mpr hforall
        rw [hv] at this
        exact absurd this (by simp)
      constructor
      · intro h; exact absurd h (by simp)
      · intro h
        exact absurd (fun b hb hne => h a1 (List.mem_cons_self _ _) b hb hne) hnot

/-- C2: `validateAllocations` answers `true` exactly when no ordered pair of
value-distinct allocations intersects in both time and space; with a
conflicting pair present it answers `false` (the emission of the pair on
`std::cerr` is I/O and is not modelled).  Well-formedness of every entry
(ordered live range, non-negative size) is required for the internal
`TORCH_INTERNAL_ASSERT`s of `intersectArea` to pass. -/
theorem validateAllocations_eq_true_iff (l : List MemAllocation)
    (hwf : ∀ a ∈ l, a.lvr.begin ≤ a.lvr.endp ∧ 0 ≤ a.reg.size) :
    validateAllocations l = some true ↔
      ∀ a ∈ l, ∀ b ∈ l, a ≠ b →
        ¬ (intersectLiveRange a.lvr b.lvr = some true ∧
           intersectMemRegion a.reg b.reg = some true) := by
  rw [validateAllocations, validateOuter_eq_true_iff l l hwf hwf]
  simp only [intersectAllocs_eq_some_true_iff]

/-- C2 witness: the iff instantiated at the spec's single-point-touch plan. -/
theorem validateAllocations_eq_true_iff_witness :
    (∀ a ∈ [(⟨⟨0, 5⟩, ⟨0, 128⟩⟩ : MemAllocation), ⟨⟨5, 10⟩, ⟨0, 128⟩⟩],
        a.lvr.begin ≤ a.lvr.endp ∧ 0 ≤ a.reg.size) ∧
    (validateAllocations [⟨⟨0, 5⟩, ⟨0, 128⟩⟩, ⟨⟨5, 10⟩, ⟨0, 128⟩⟩] = some true ↔
      ∀ a ∈ [(⟨⟨0, 5⟩, ⟨0, 128⟩⟩ : MemAllocation), ⟨⟨5, 10⟩, ⟨0, 128⟩⟩],
        ∀ b ∈ [(⟨⟨0, 5⟩, ⟨0, 128⟩⟩ : MemAllocation), ⟨⟨5, 10⟩, ⟨0, 128⟩⟩], a ≠ b →
          ¬ (intersectLiveRange a.lvr b.lvr = some true ∧
             intersectMemRegion a.reg b.reg = some true)) :=
  ⟨by decide, validateAllocations_eq_true_iff _ (by decide)⟩

/-- In the overflow-free regime (non-negative offsets, positive sizes whose
sum stays within `int64`), `intersectMemRegion` is always `false`: the
source's `intersectArea` only produces a negative answer through its two
overflow guards, and with these bounds neither guard can fire. -/
theorem intersectMemRegion_eq_false_of_no_overflow (r1 r2 : MemRegion)
    (h1 : 0 ≤ r1.offset) (h2 : 0 ≤ r2.offset)
    (hs1 : 0 < r1.size) (hs2 : 0 < r2.size)
    (hsum : r1.size + r2.size ≤ int64Max) :
    intersectMemRegion r1 r2 = some false := by
  obtain ⟨o1, s1⟩ := r1
  obtain ⟨o2, s2⟩ := r2
  simp only [MemRegion.offset, MemRegion.size] at h1 h2 hs1 hs2 hsum
  have hM : o1 + s1 ≤ max (o1 + s1) (o2 + s2) := le_max_left _ _
  have hm : min o1 o2 ≤ o1 := min_le_left _ _
  have hadd : valid_add ((o1 + s1) - o1) ((o2 + s2) - o2) = true := by
    rw [valid_add, if_neg]
    simp only [int64Max, int64Min] at hsum ⊢
    omega
  have hsub : valid_sub (max (o1 + s1) (o2 + s2) - min o1 o2)
      (((o1 + s1) - o1) + ((o2 + s2) - o2)) = true := by
    rw [valid_sub, if_neg]
    simp only [int64Max, int64Min] at hsum ⊢
    omega
  rw [intersectMemRegion]
  simp only [MemRegion.offset, MemRegion.size]
  rw [intersectArea, if_pos ⟨(by omega : o1 ≤ o1 + s1), (by omega : o2 ≤ o2 + s2)⟩]
  simp only [Option.map_some']
  congr 1
  rw [hadd, hsub]
  simp only [show (true = false) = False by simp, if_false]
  split
  · decide
  · decide

/-- C1 counterexample.  A pair of allocations whose live ranges touch at
exactly one point (`a.endp = 5 = b.begin`) and whose regions coincide, with
sizes of `2^62 + 2^61` bytes: the overflow guard inside `intersectArea` makes
`intersectMemRegion` answer `true`, the touching live ranges already satisfy
`intersectLiveRange` (the source returns `0 ≤ 0` for a single-point share),
so `intersectAllocs` reports a conflict and `validateAllocations` rejects
the plan — against the claim that such a pair is never a conflict "even if
their memory regions overlap". -/
theorem touching_pair_with_huge_regions_is_conflict :
    (⟨⟨0, 5⟩, ⟨0, 6917529027641081856⟩⟩ : MemAllocation).lvr.endp =
      (⟨⟨5, 10⟩, ⟨0, 6917529027641081856⟩⟩ : MemAllocation).lvr.begin ∧
    intersectAllocs ⟨⟨0, 5⟩, ⟨0, 6917529027641081856⟩⟩
        ⟨⟨5, 10⟩, ⟨0, 6917529027641081856⟩⟩ = some true ∧
    validateAllocations [⟨⟨0, 5⟩, ⟨0, 6917529027641081856⟩⟩,
        ⟨⟨5, 10⟩, ⟨0, 6917529027641081856⟩⟩] = some false := by
  refine ⟨rfl, by decide, by decide⟩

/-- C1 (amended): two allocations whose live ranges touch at exactly one
point (`a.endp = b.begin`) are never reported as a conflict by
`intersectAllocs`, provided the two region sizes are positive, the offsets
non-negative, and the sizes' sum does not overflow signed 64-bit; and the
spec's concrete plan `{[0,5]:128@0, [5,10]:128@0}` passes
`validateAllocations`.  (Note the non-conflict does not come from
`intersectLiveRange`, which treats a single-point touch as an intersection,
but from `intersectMemRegion` being `false` throughout the overflow-free
regime.) -/
theorem touching_allocations_not_a_conflict :
    (∀ a b : MemAllocation,
        a.lvr.begin ≤ a.lvr.endp → b.lvr.begin ≤ b.lvr.endp →
        a.lvr.endp = b.lvr.begin →
        0 ≤ a.reg.offset → 0 ≤ b.reg.offset →
        0 < a.reg.size → 0 < b.reg.size →
        a.reg.size + b.reg.size ≤ int64Max →
        intersectAllocs a b = some false) ∧
    validateAllocations [⟨⟨0, 5⟩, ⟨0, 128⟩⟩, ⟨⟨5, 10⟩, ⟨0, 128⟩⟩] = some true := by
  constructor
  · intro a b h1 h2 _ho1 ho2 ho3 hs1 hs2 hsum
    have hmem := intersectMemRegion_eq_false_of_no_overflow a.reg b.reg ho2 ho3 hs1 hs2 hsum
    obtain ⟨t, ht⟩ := intersectLiveRange_isSome h1 h2
    cases t with
    | false => simp [intersectAllocs, ht]
    | true => simp [intersectAllocs, ht, hmem]
  · decide

/-- C1 witness: the amended statement applied at the spec's own example,
`{[0,5]:128}` and `{[5,10]:128}` both at offset 0. -/
theorem touching_allocations_not_a_conflict_witness :
    ((0 : Int) ≤ 5 ∧ (5 : Int) ≤ 10 ∧
     (⟨⟨0, 5⟩, ⟨0, 128⟩⟩ : MemAllocation).lvr.endp =
       (⟨⟨5, 10⟩, ⟨0, 128⟩⟩ : MemAllocation).lvr.begin ∧
     (0 : Int) < 128 ∧ (128 : Int) + 128 ≤ int64Max) ∧
    intersectAllocs ⟨⟨0, 5⟩, ⟨0, 128⟩⟩ ⟨⟨5, 10⟩, ⟨0, 128⟩⟩ = some false :=
  ⟨⟨by decide, by decide, rfl, by decide, by decide⟩,
   touching_allocations_not_a_conflict.1 ⟨⟨0, 5⟩, ⟨0, 128⟩⟩ ⟨⟨5, 10⟩, ⟨0, 128⟩⟩
     (by decide) (by decide) rfl (by decide) (by decide) (by decide) (by decide)
     (by decide)⟩

/-- Modelled from the spec: `live_range_start_cmp` (declared in the static
runtime headers, outside this repository) orders live ranges by `begin`
("Sort ranges by `begin`"). -/
def live_range_start_cmp (r1 r2 : LiveRange) : Bool :=
  decide (r1.begin < r2.begin)

/-- Modelled from the spec: `MemoryPlanner::computeAlignedTensorSize`
(declared in the static runtime, outside this repository) rounds a byte
count up to the platform alignment constant, 64 bytes. -/
def computeAlignedTensorSize (size : Int) : Int :=
  ((size + 63) / 64) * 64

/-- One `std::map::insert` into an association list kept sorted by
`live_range_start_cmp`: keys equivalent under the comparator (neither
strictly smaller) leave the map unchanged, exactly as `std::map::insert`
refuses to overwrite. -/
def mapInsert {α : Type} (k : LiveRange) (v : α) : List (LiveRange × α) → List (LiveRange × α)
  | [] => [(k, v)]
  | (k', v') :: rest =>
    if live_range_start_cmp k k' then (k, v) :: (k', v') :: rest
    else if live_range_start_cmp k' k then (k', v') :: mapInsert k v rest
    else (k', v') :: rest

/-- The `std::map` range constructor (memory_planning.cpp lines 70-71):
insert each entry of the unordered map in turn. -/
def mapOfList {α : Type} (l : List (LiveRange × α)) : List (LiveRange × α) :=
  l.foldl (fun acc p => mapInsert p.1 p.2 acc) []

/-- The offset-accumulating loop of `naive` (memory_planning.cpp lines
74-79). -/
def naiveLoop : List (LiveRange × Int) → Int → List MemAllocation
  | [], _ => []
  | (lvr, s) :: rest, offset =>
    ⟨lvr, ⟨offset, computeAlignedTensorSize s⟩⟩ ::
      naiveLoop rest (offset + computeAlignedTensorSize s)

/-- `naive` from memory_planning.cpp lines 67-81: sort the managed live
ranges through a `std::map` ordered by `live_range_start_cmp`, then hand out
offsets sequentially. -/
def naive (managed_live_ranges : List (LiveRange × Int)) : List MemAllocation :=
  naiveLoop (mapOfList managed_live_ranges) 0

/-- `getTotalAllocationSize` from memory_planning.cpp lines 336-342. -/
def getTotalAllocationSize (allocations : List MemAllocation) : Int :=
  allocations.foldl (fun total_size alloc => max total_size (alloc.reg.offset + alloc.reg.size)) 0

theorem mem_mapInsert {α : Type} {p : LiveRange × α} {k : LiveRange} {v : α}
    {l : List (LiveRange × α)} (h : p ∈ mapInsert k v l) : p = (k, v) ∨ p ∈ l := by
  induction l with
  | nil =>
    rw [mapInsert] at h
    exact Or.inl (List.mem_singleton.mp h)
  | cons q rest ih =>
    obtain ⟨k', v'⟩ := q
    rw [mapInsert] at h
    split_ifs at h
    · rcases List.mem_cons.mp h with rfl | h'
      · exact Or.inl rfl
      · exact Or.inr h'
    · rcases List.mem_cons.mp h with rfl | h'
      · exact Or.inr (List.mem_cons_self _ _)
      · rcases ih h' with rfl | h''
        · exact Or.inl rfl
        · exact Or.inr (List.mem_cons_of_mem _ h'')
    · exact Or.inr h

theorem mapInsert_perm {α : Type} (k : LiveRange) (v : α) (l : List (LiveRange × α))
    (h : ∀ q ∈ l, k.begin ≠ q.1.begin) :
    List.Perm (mapInsert k v l) ((k, v) :: l) := by
  induction l with
  | nil => rw [mapInsert]
  | cons q rest ih =>
    obtain ⟨k', v'⟩ := q
    have hk : k.begin ≠ k'.begin := h (k', v') (List.mem_cons_self _ _)
    rw [mapInsert]
    split_ifs with h1 h2
    · exact List.Perm.refl _
    · exact ((ih (fun q hq => h q (List.mem_cons_of_mem _ hq))).cons (k', v')).trans
        (List.Perm.swap (k, v) (k', v') rest)
    · exfalso
      apply hk
      simp only [live_range_start_cmp, decide_eq_true_eq] at h1 h2
      omega

theorem foldl_mapInsert_perm {α : Type} (l : List (LiveRange × α))
    (acc : List (LiveRange × α))
    (hl : List.Pairwise (fun p q => p.1.begin ≠ q.1.begin) l)
    (hacc : ∀ p ∈ l, ∀ q ∈ acc, p.1.begin ≠ q.1.begin) :
    List.Perm (l.foldl (fun acc p => mapInsert p.1 p.2 acc) acc) (acc ++ l) := by
  induction l generalizing acc with
  | nil => simp
  | cons p rest ih =>
    obtain ⟨hhd, htl⟩ := List.pairwise_cons.mp hl
    rw [List.foldl_cons]
    have hp : ∀ q ∈ acc, p.1.begin ≠ q.1.begin := hacc p (List.mem_cons_self _ _)
    have hacc' : ∀ x ∈ rest, ∀ q ∈ mapInsert p.1 p.2 acc, x.1.begin ≠ q.1.begin := by
      intro x hx q hq
      rcases mem_mapInsert hq with rfl | hq'
      · exact (hhd x hx).symm
      · exact hacc x (List.mem_cons_of_mem _ hx) q hq'
    refine ((ih _ htl hacc').trans ?_)
    refine (((mapInsert_perm p.1 p.2 acc hp).append_right rest).trans ?_)
    exact List.perm_middle.symm

theorem mapInsert_pairwise {α : Type} (k : LiveRange) (v : α)
    (l : List (LiveRange × α))
    (h : List.Pairwise (fun p q => p.1.begin ≤ q.1.begin) l) :
    List.Pairwise (fun p q => p.1.begin ≤ q.1.begin) (mapInsert k v l) := by
  induction l with
  | nil =>
    rw [mapInsert]
    simp
  | cons q rest ih =>
    obtain ⟨k', v'⟩ := q
    obtain ⟨hhd, htl⟩ := List.pairwise_cons.mp h
    rw [mapInsert]
    split_ifs with h1 h2
    · refine List.Pairwise.cons ?_ h
      intro q hq
      simp only [live_range_start_cmp, decide_eq_true_eq] at h1
      rcases List.mem_cons.mp hq with rfl | hq'
      · show k.begin ≤ k'.begin
        omega
      · show k.begin ≤ q.1.begin
        have h3 : k'.begin ≤ q.1.begin := hhd q hq'
        omega
    · refine List.Pairwise.cons ?_ (ih htl)
      intro q hq
      simp only [live_range_start_cmp, decide_eq_true_eq] at h2
      rcases mem_mapInsert hq with rfl | hq'
      · show k'.begin ≤ k.begin
        omega
      · exact hhd q hq'
    · exact h

theorem mapOfList_pairwise {α : Type} (l : List (LiveRange × α)) :
    List.Pairwise (fun p q => p.1.begin ≤ q.1.begin) (mapOfList l) := by
  rw [mapOfList]
  have aux : ∀ (l' : List (LiveRange × α)) (acc : List (LiveRange × α)),
      List.Pairwise (fun p q => p.1.begin ≤ q.1.begin) acc →
      List.Pairwise (fun p q => p.1.begin ≤ q.1.begin)
        (l'.foldl (fun acc p => mapInsert p.1 p.2 acc) acc) := by
    intro l'
    induction l' with
    | nil => intro acc h; simpa using h
    | cons p rest ih =>
      intro acc h
      rw [List.foldl_cons]
      exact ih _ (mapInsert_pairwise p.1 p.2 acc h)
  exact aux l [] (by simp)

theorem naiveLoop_map_lvr (l : List (LiveRange × Int)) (off : Int) :
    (naiveLoop l off).map (fun a => a.lvr) = l.map (fun p => p.1) := by
  induction l generalizing off with
  | nil => rfl
  | cons p rest ih =>
    obtain ⟨lvr, s⟩ := p
    simp only [naiveLoop, List.map_cons, ih]

theorem naiveLoop_offsets (l : List (LiveRange × Int)) (off : Int) :
    ∀ i (h : i < (naiveLoop l off).length),
      ((naiveLoop l off).get ⟨i, h⟩).reg.offset =
        off + (((naiveLoop l off).take i).map (fun a => a.reg.size)).sum := by
  induction l generalizing off with
  | nil => intro i h; rw [naiveLoop] at h; simp at h
  | cons p rest ih =>
    obtain ⟨lvr, s⟩ := p
    intro i h
    cases i with
    | zero => simp [naiveLoop]
    | succ j =>
      have hlen : j < (naiveLoop rest (off + computeAlignedTensorSize s)).length := by
        rw [naiveLoop] at h
        simpa using Nat.lt_of_succ_lt_succ h
      have := ih (off + computeAlignedTensorSize s) j hlen
      simp only [naiveLoop, List.get_cons_succ, List.take_succ_cons, List.map_cons,
        List.sum_cons] at this ⊢
      rw [this]
      omega

theorem naiveLoop_total (l : List (LiveRange × Int)) (off : Int)
    (hs : ∀ p ∈ l, 0 ≤ computeAlignedTensorSize p.2) :
    (naiveLoop l off).foldl (fun total_size a => max total_size (a.reg.offset + a.reg.size)) off =
      off + (l.map (fun p => computeAlignedTensorSize p.2)).sum := by
  induction l generalizing off with
  | nil => simp [naiveLoop]
  | cons p rest ih =>
    obtain ⟨lvr, s⟩ := p
    have hA : 0 ≤ computeAlignedTensorSize s := hs (lvr, s) (List.mem_cons_self _ _)
    simp only [naiveLoop, List.foldl_cons, List.map_cons, List.sum_cons]
    have hmax : max off (off + computeAlignedTensorSize s) = off + computeAlignedTensorSize s :=
      max_eq_right (by omega)
    rw [hmax, ih _ (fun q hq => hs q (List.mem_cons_of_mem _ hq))]
    ring

theorem computeAlignedTensorSize_nonneg {s : Int} (h : 0 ≤ s) :
    0 ≤ computeAlignedTensorSize s := by
  rw [computeAlignedTensorSize]
  have h1 : 0 ≤ (s + 63) / 64 := Int.ediv_nonneg (by omega) (by norm_num)
  positivity

theorem naiveLoop_pairwise (l : List (LiveRange × Int)) (off : Int)
    (h : List.Pairwise (fun p q => p.1.begin ≤ q.1.begin) l) :
    List.Pairwise (fun a1 a2 : MemAllocation => a1.lvr.begin ≤ a2.lvr.begin) (naiveLoop l off) := by
  induction l generalizing off with
  | nil => exact List.Pairwise.nil
  | cons p rest ih =>
    obtain ⟨lvr, s⟩ := p
    obtain ⟨hhd, htl⟩ := List.pairwise_cons.mp h
    refine List.Pairwise.cons ?_ (ih _ htl)
    intro a ha
    have hmem : a.lvr ∈ rest.map (fun p => p.1) := by
      rw [← naiveLoop_map_lvr rest (off + computeAlignedTensorSize s)]
      exact List.mem_map_of_mem _ ha
    obtain ⟨q, hq, hql⟩ := List.mem_map.mp hmem
    have hle : lvr.begin ≤ q.1.begin := hhd q hq
    show lvr.begin ≤ a.lvr.begin
    rw [← hql]
    exact hle

/-- C3 (amended): for managed live ranges whose `begin`s are pairwise
distinct, the NAIVE strategy sorts them by `begin` and assigns offsets as
prefix sums of the aligned sizes (the first offset is the `i = 0` instance),
so the total allocation size is exactly the sum of all aligned sizes.  The
sizes are positive (spec invariant I1).  The distinct-`begin` hypothesis is
forced by the counterexample below: the `std::map` keyed by the begin-only
comparator `live_range_start_cmp` drops every entry whose `begin` is already
present, and the exact-total equality fails with it. -/
theorem naive_begin_sorted_prefix_sums (m : List (LiveRange × Int))
    (hb : List.Pairwise (fun p q => p.1.begin ≠ q.1.begin) m)
    (hs : ∀ p ∈ m, 0 < p.2) :
    List.Pairwise (fun a1 a2 : MemAllocation => a1.lvr.begin ≤ a2.lvr.begin) (naive m) ∧
    (∀ i (h : i < (naive m).length),
      ((naive m).get ⟨i, h⟩).reg.offset =
        (((naive m).take i).map (fun a => a.reg.size)).sum) ∧
    getTotalAllocationSize (naive m) = (m.map (fun p => computeAlignedTensorSize p.2)).sum := by
  have hperm : List.Perm (mapOfList m) m := by
    have := foldl_mapInsert_perm m [] hb (by simp)
    simpa [mapOfList] using this
  refine ⟨?_, ?_, ?_⟩
  · exact naiveLoop_pairwise (mapOfList m) 0 (mapOfList_pairwise m)
  · intro i h
    show ((naiveLoop (mapOfList m) 0).get ⟨i, h⟩).reg.offset =
      (((naiveLoop (mapOfList m) 0).take i).map (fun a => a.reg.size)).sum
    rw [naiveLoop_offsets (mapOfList m) 0 i h]
    omega
  · have hsz : ∀ p ∈ mapOfList m, 0 ≤ computeAlignedTensorSize p.2 := by
      intro p hp
      exact computeAlignedTensorSize_nonneg (le_of_lt (hs p (hperm.mem_iff.mp hp)))
    rw [getTotalAllocationSize, naive, naiveLoop_total (mapOfList m) 0 hsz]
    have := (hperm.map (fun p => computeAlignedTensorSize p.2)).sum_eq
    omega

/-- C3 witness: two managed ranges with distinct `begin`s and sizes 1 and 65;
the plan is `begin`-sorted, offsets are the prefix sums 0 and 128, and the
total is `128 + 64`, the sum of the aligned sizes. -/
theorem naive_begin_sorted_prefix_sums_witness :
    (List.Pairwise (fun p q => p.1.begin ≠ q.1.begin)
        [((⟨2, 3⟩ : LiveRange), (1 : Int)), (⟨0, 1⟩, 65)] ∧
      ∀ p ∈ [((⟨2, 3⟩ : LiveRange), (1 : Int)), (⟨0, 1⟩, 65)], 0 < p.2) ∧
    (List.Pairwise (fun a1 a2 : MemAllocation => a1.lvr.begin ≤ a2.lvr.begin)
        (naive [(⟨2, 3⟩, 1), (⟨0, 1⟩, 65)]) ∧
     (∀ i (h : i < (naive [(⟨2, 3⟩, 1), (⟨0, 1⟩, 65)]).length),
       ((naive [(⟨2, 3⟩, 1), (⟨0, 1⟩, 65)]).get ⟨i, h⟩).reg.offset =
         (((naive [(⟨2, 3⟩, 1), (⟨0, 1⟩, 65)]).take i).map (fun a => a.reg.size)).sum) ∧
     getTotalAllocationSize (naive [(⟨2, 3⟩, 1), (⟨0, 1⟩, 65)]) =
       ([((⟨2, 3⟩ : LiveRange), (1 : Int)), (⟨0, 1⟩, 65)].map
         (fun p => computeAlignedTensorSize p.2)).sum) :=
  ⟨⟨by decide, by decide⟩,
   naive_begin_sorted_prefix_sums [(⟨2, 3⟩, 1), (⟨0, 1⟩, 65)] (by decide) (by decide)⟩

/-- `MemEvent::EventType` from memory_planning.h. -/
inductive EventType where
  | Allocate
  | Free
deriving DecidableEq

/-- `FrameNodeId` (declared in the interpreter headers, outside this
repository; modelled from the spec's data model): `pc` plus the responsible
graph node, here carried as a node identifier together with the value
identifiers of `node->outputs()`.  The `node_schema` / `node_header` strings
take part in no decision made by this file's code and are folded into the
node identifier. -/
structure FrameNode where
  pc : Nat
  node : Nat
  outputs : List Nat
deriving DecidableEq

/-- `MemEvent` from memory_planning.h; `ptr_addr` is an opaque key (a
`std::string` in the source) and is modelled as a `Nat`. -/
structure MemEvent where
  time : Int
  ptr_addr : Nat
  size : Int
  type : EventType
  frame_node_id : Option FrameNode
deriving DecidableEq

/-- Lookup in the `allocs` hash map (`std::unordered_map<std::string,
MemEvent>`), modelled as an association list. -/
def findAlloc : List (Nat × MemEvent) → Nat → Option MemEvent
  | [], _ => none
  | (k, e) :: rest, key => if k = key then some e else findAlloc rest key

/-- `allocs.erase(ptr_addr)`. -/
def eraseAlloc : List (Nat × MemEvent) → Nat → List (Nat × MemEvent)
  | [], _ => []
  | (k, e) :: rest, key => if k = key then rest else (k, e) :: eraseAlloc rest key

/-- `allocs.insert({ptr_addr, event})`: like every `insert` on a standard
map, a present key leaves the map unchanged. -/
def insertAllocKeepFirst (allocs : List (Nat × MemEvent)) (key : Nat) (e : MemEvent) :
    List (Nat × MemEvent) :=
  match findAlloc allocs key with
  | some _ => allocs
  | none => allocs ++ [(key, e)]

/-- `managed_live_ranges.insert({lvr, size})` (an `unordered_map` keyed by
the live range): present keys are kept. -/
def insertRangeKeepFirst (mlr : List (LiveRange × Int)) (lvr : LiveRange) (s : Int) :
    List (LiveRange × Int) :=
  match mlr.find? (fun p => decide (p.1 = lvr)) with
  | some _ => mlr
  | none => mlr ++ [(lvr, s)]

/-- The event sweep of `getManagedLiveRangesFromMemEvents`
(memory_planning.cpp lines 420-450).  Each `TORCH_INTERNAL_ASSERT` is the
`none` branch: a frame-less `Allocate` must carry time 0; a `Free` must find
an open entry of equal size and strictly earlier time. -/
def getMLRLoop :
    List MemEvent → List (Nat × MemEvent) → List (LiveRange × Int) →
    List (LiveRange × FrameNode) →
    Option (List (Nat × MemEvent) × List (LiveRange × Int) × List (LiveRange × FrameNode))
  | [], allocs, mlr, hdr => some (allocs, mlr, hdr)
  | e :: rest, allocs, mlr, hdr =>
    match e.type with
    | EventType.Allocate =>
      match e.frame_node_id with
      | some _ => getMLRLoop rest (insertAllocKeepFirst allocs e.ptr_addr e) mlr hdr
      | none => if e.time = 0 then getMLRLoop rest allocs mlr hdr else none
    | EventType.Free =>
      match findAlloc allocs e.ptr_addr with
      | none => none
      | some alloc =>
        if alloc.type = EventType.Allocate ∧ alloc.size = e.size ∧ alloc.time < e.time then
          match alloc.frame_node_id with
          | some fid =>
            getMLRLoop rest (eraseAlloc allocs e.ptr_addr)
              (insertRangeKeepFirst mlr ⟨alloc.time, e.time⟩ alloc.size)
              (hdr ++ [(⟨alloc.time, e.time⟩, fid)])
          | none => none
        else none

/-- The residual check of `getManagedLiveRangesFromMemEvents`
(memory_planning.cpp lines 452-470): every entry still open after the sweep
must be a frame-carrying `Allocate`, and when its node has outputs each of
them must be a graph output. -/
def residualOK (gOutputs : List Nat) (allocs : List (Nat × MemEvent)) : Bool :=
  allocs.all (fun p =>
    decide (p.2.type = EventType.Allocate) && p.2.frame_node_id.isSome &&
    (match p.2.frame_node_id with
     | some fid =>
       if fid.outputs.length > 0 then fid.outputs.all (fun o => gOutputs.contains o) else true
     | none => true))

/-- `getManagedLiveRangesFromMemEvents` from memory_planning.cpp lines
408-472; the graph argument is represented by the list of its output value
identifiers. -/
def getManagedLiveRangesFromMemEvents (mem_events : List MemEvent) (gOutputs : List Nat) :
    Option (List (LiveRange × Int) × List (LiveRange × FrameNode)) :=
  match getMLRLoop mem_events [] [] [] with
  | none => none
  | some (allocs, mlr, hdr) =>
    if residualOK gOutputs allocs then some (mlr, hdr) else none

/-- The claim's trace conditions, written as a checker over the open set
(the refinement side of C6): every `Free` pairs with a matching open entry
of equal size and strictly earlier time; every `Allocate` without a frame
node id has time 0; every `Allocate` left open after the sweep has all of
its producing node's outputs among the graph outputs. -/
def specTraceWFAux (gOutputs : List Nat) : List MemEvent → List (Nat × MemEvent) → Bool
  | [], openAllocs =>
    openAllocs.all (fun p =>
      match p.2.frame_node_id with
      | some fid => fid.outputs.all (fun o => gOutputs.contains o)
      | none => false)
  | e :: rest, openAllocs =>
    match e.type with
    | EventType.Allocate =>
      match e.frame_node_id with
      | some _ => specTraceWFAux gOutputs rest (insertAllocKeepFirst openAllocs e.ptr_addr e)
      | none => decide (e.time = 0) && specTraceWFAux gOutputs rest openAllocs
    | EventType.Free =>
      match findAlloc openAllocs e.ptr_addr with
      | none => false
      | some alloc =>
        (decide (alloc.size = e.size) && decide (alloc.time < e.time)) &&
          specTraceWFAux gOutputs rest (eraseAlloc openAllocs e.ptr_addr)

def specTraceWF (mem_events : List MemEvent) (gOutputs : List Nat) : Bool :=
  specTraceWFAux gOutputs mem_events []

/-- Combined result of the sweep followed by the residual check, used to
relate the source function to the claim's checker. -/
def loopThenResidual (gOutputs : List Nat) (events : List MemEvent)
    (allocs : List (Nat × MemEvent)) (mlr : List (LiveRange × Int))
    (hdr : List (LiveRange × FrameNode)) : Bool :=
  match getMLRLoop events allocs mlr hdr with
  | none => false
  | some (a, _, _) => residualOK gOutputs a

theorem findAlloc_mem {allocs : List (Nat × MemEvent)} {k : Nat} {e : MemEvent}
    (h : findAlloc allocs k = some e) : (k, e) ∈ allocs := by
  induction allocs with
  | nil => simp [findAlloc] at h
  | cons p rest ih =>
    obtain ⟨k', e'⟩ := p
    rw [findAlloc] at h
    split_ifs at h with hk
    · obtain rfl := Option.some.inj h
      subst hk
      exact List.mem_cons_self _ _
    · exact List.mem_cons_of_mem _ (ih h)

theorem mem_eraseAlloc {allocs : List (Nat × MemEvent)} {k : Nat} {p : Nat × MemEvent}
    (h : p ∈ eraseAlloc allocs k) : p ∈ allocs := by
  induction allocs with
  | nil => simp [eraseAlloc] at h
  | cons q rest ih =>
    obtain ⟨k', e'⟩ := q
    rw [eraseAlloc] at h
    split_ifs at h with hk
    · exact List.mem_cons_of_mem _ h
    · rcases List.mem_cons.mp h with rfl | h'
      · exact List.mem_cons_self _ _
      · exact List.mem_cons_of_mem _ (ih h')

theorem mem_insertAllocKeepFirst {allocs : List (Nat × MemEvent)} {key : Nat}
    {e : MemEvent} {p : Nat × MemEvent}
    (h : p ∈ insertAllocKeepFirst allocs key e) : p ∈ allocs ∨ p = (key, e) := by
  rw [insertAllocKeepFirst] at h
  rcases hf : findAlloc allocs key with _ | e'
  · rw [hf] at h
    rcases List.mem_append.mp h with h' | h'
    · exact Or.inl h'
    · exact Or.inr (List.mem_singleton.mp h')
  · rw [hf] at h
    exact Or.inl h

/-- Invariant of the sweep's open map: only frame-carrying `Allocate` events
are ever inserted. -/
def OpenInv (allocs : List (Nat × MemEvent)) : Prop :=
  ∀ p ∈ allocs, p.2.type = EventType.Allocate ∧ p.2.frame_node_id.isSome = true

theorem residualOK_eq_spec (gOutputs : List Nat) (allocs : List (Nat × MemEvent))
    (hinv : OpenInv allocs) :
    residualOK gOutputs allocs =
      allocs.all (fun p =>
        match p.2.frame_node_id with
        | some fid => fid.outputs.all (fun o => gOutputs.contains o)
        | none => false) := by
  induction allocs with
  | nil => rfl
  | cons p rest ih =>
    have hp := hinv p (List.mem_cons_self _ _)
    have hrest : OpenInv rest := fun q hq => hinv q (List.mem_cons_of_mem _ hq)
    obtain ⟨fid, hfid⟩ := Option.isSome_iff_exists.mp hp.2
    rw [residualOK, List.all_cons, List.all_cons]
    have hcomp : (decide (p.2.type = EventType.Allocate) && p.2.frame_node_id.isSome &&
        (match p.2.frame_node_id with
         | some fid =>
           if fid.outputs.length > 0 then fid.outputs.all (fun o => gOutputs.contains o) else true
         | none => true)) =
        (match p.2.frame_node_id with
         | some fid => fid.outputs.all (fun o => gOutputs.contains o)
         | none => false) := by
      rw [hfid]
      simp only [hp.1, decide_eq_true_eq, Option.isSome_some, Bool.true_and, decide_True,
        Bool.and_self]
      cases houts : fid.outputs with
      | nil => simp
      | cons o os => simp
    rw [hcomp]
    have htail : residualOK gOutputs rest = rest.all (fun p =>
        match p.2.frame_node_id with
        | some fid => fid.outputs.all (fun o => gOutputs.contains o)
        | none => false) := ih hrest
    rw [residualOK] at htail
    rw [htail]

theorem loopThenResidual_eq_spec (gOutputs : List Nat) (events : List MemEvent) :
    ∀ (allocs : List (Nat × MemEvent)) (mlr : List (LiveRange × Int))
      (hdr : List (LiveRange × FrameNode)), OpenInv allocs →
      loopThenResidual gOutputs events allocs mlr hdr = specTraceWFAux gOutputs events allocs := by
  induction events with
  | nil =>
    intro allocs mlr hdr hinv
    show residualOK gOutputs allocs = _
    rw [specTraceWFAux]
    exact residualOK_eq_spec gOutputs allocs hinv
  | cons e rest ih =>
    intro allocs mlr hdr hinv
    obtain ⟨t, ptr, sz, ty, fid⟩ := e
    cases ty with
    | Allocate =>
      cases fid with
      | some f =>
        have hinv' : OpenInv (insertAllocKeepFirst allocs ptr ⟨t, ptr, sz, EventType.Allocate, some f⟩) := by
          intro p hp
          rcases mem_insertAllocKeepFirst hp with hp' | rfl
          · exact hinv p hp'
          · exact ⟨rfl, rfl⟩
        exact ih (insertAllocKeepFirst allocs ptr ⟨t, ptr, sz, EventType.Allocate, some f⟩)
          mlr hdr hinv'
      | none =>
        simp only [loopThenResidual, getMLRLoop, specTraceWFAux]
        by_cases ht : t = 0
        · rw [if_pos ht]
          have := ih allocs mlr hdr hinv
          rw [loopThenResidual] at this
          rw [this]
          simp [ht]
        · rw [if_neg ht]
          simp [ht]
    | Free =>
      rcases hf : findAlloc allocs ptr with _ | alloc
      · simp only [loopThenResidual, getMLRLoop, specTraceWFAux, hf]
      · have hmem := findAlloc_mem hf
        have hal := hinv (ptr, alloc) hmem
        have hal1 : alloc.type = EventType.Allocate := hal.1
        obtain ⟨af, haf⟩ := Option.isSome_iff_exists.mp hal.2
        have haf' : alloc.frame_node_id = some af := haf
        by_cases hc : alloc.size = sz ∧ alloc.time < t
        · have hinv' : OpenInv (eraseAlloc allocs ptr) := fun q hq => hinv q (mem_eraseAlloc hq)
          simp only [loopThenResidual, getMLRLoop, specTraceWFAux, hf, haf']
          rw [if_pos ⟨hal1, hc.1, hc.2⟩]
          have := ih (eraseAlloc allocs ptr)
            (insertRangeKeepFirst mlr ⟨alloc.time, t⟩ alloc.size)
            (hdr ++ [(⟨alloc.time, t⟩, af)]) hinv'
          rw [loopThenResidual] at this
          rw [this]
          simp [hc.1, hc.2]
        · have hcond : ¬ (alloc.type = EventType.Allocate ∧ alloc.size = sz ∧ alloc.time < t) := by
            intro hconj
            exact hc ⟨hconj.2.1, hconj.2.2⟩
          simp only [loopThenResidual, getMLRLoop, specTraceWFAux, hf]
          rw [if_neg hcond]
          rcases not_and_or.mp hc with h' | h'
          · simp [h']
          · simp [h']

/-- C6: the trace-replay extractor succeeds exactly when the claim's
conditions hold — every `Free` pairs with a matching open `Allocate` of
equal size and strictly earlier time at the same pointer key, every
`Allocate` without a `frame_node_id` carries time 0, and every `Allocate`
still open after the sweep has all of its producing node's outputs among the
graph outputs; in every other situation the function hits a fatal assertion
(modelled as `none`). -/
theorem getManagedLiveRanges_isSome_iff_specTraceWF (events : List MemEvent)
    (gOutputs : List Nat) :
    (getManagedLiveRangesFromMemEvents events gOutputs).isSome = true ↔
      specTraceWF events gOutputs = true := by
  have h := loopThenResidual_eq_spec gOutputs events [] [] [] (by intro p hp; simp at hp)
  rw [specTraceWF, ← h, getManagedLiveRangesFromMemEvents, loopThenResidual]
  rcases hm : getMLRLoop events [] [] [] with _ | ⟨a, m, hd⟩
  · simp
  · by_cases hr : residualOK gOutputs a = true
    · simp [hr]
    · simp [hr]

/-- `managed_range_values.count(range)` followed by `.at(range)`: find the
entry whose key is equivalent to `range` under `live_range_start_cmp`
(neither compares less than the other). -/
def findByStart {α : Type} : List (LiveRange × α) → LiveRange → Option α
  | [], _ => none
  | (k', v') :: rest, k =>
    if live_range_start_cmp k k' = false ∧ live_range_start_cmp k' k = false then some v'
    else findByStart rest k

/-- The `managed_range_values` loop of `planMemory` (memory_planning.cpp
lines 578-588): for each `(value, range)` pair, warn when the range key is
already present (the warning records the new value and the value already
stored), then `insert` — which keeps the value already present.  The first
component is the resulting `std::map`, the second the list of emitted
warnings. -/
def buildManagedRangeValues (items : List (Nat × LiveRange)) :
    List (LiveRange × Nat) × List (Nat × Nat) :=
  items.foldl
    (fun acc item =>
      match findByStart acc.1 item.2 with
      | some vOld => (mapInsert item.2 item.1 acc.1, acc.2 ++ [(item.1, vOld)])
      | none => (mapInsert item.2 item.1 acc.1, acc.2))
    ([], [])

/-- C7 counterexample: two distinct values 1 and 2 recorded (in this
iteration order) against the same live range.  The surviving record maps the
range to value 1 — the earlier value, not the later one as claimed —
because `std::map::insert` refuses to overwrite; the warning `(2, 1)` is
emitted and the function still returns (planning proceeds). -/
theorem later_value_does_not_win_range_record :
    (buildManagedRangeValues [(1, ⟨0, 5⟩), (2, ⟨0, 5⟩)]).1 = [(⟨0, 5⟩, 1)] ∧
    (buildManagedRangeValues [(1, ⟨0, 5⟩), (2, ⟨0, 5⟩)]).1 ≠ [(⟨0, 5⟩, 2)] ∧
    (buildManagedRangeValues [(1, ⟨0, 5⟩), (2, ⟨0, 5⟩)]).2 = [(2, 1)] := by
  refine ⟨by decide, by decide, by decide⟩

/-- C7 (amended): when two distinct managed values share the same live-range
key, the planner warns (the warning names the later value and the earlier
one) without failing, the EARLIER value wins the record — `insert` keeps the
existing entry — and planning proceeds (the loop is total and the map and
warning list are returned). -/
theorem duplicate_range_key_warns_and_earlier_value_wins (v1 v2 : Nat) (r : LiveRange)
    (hne : v1 ≠ v2) :
    buildManagedRangeValues [(v1, r), (v2, r)] = ([(r, v1)], [(v2, v1)]) ∧
    (r, v1) ≠ (r, v2) := by
  constructor
  · simp [buildManagedRangeValues, findByStart, mapInsert, live_range_start_cmp]
  · intro h
    exact hne (congrArg Prod.snd h)

/-- C7 witness: the amended statement at values 1 and 2. -/
theorem duplicate_range_key_warns_and_earlier_value_wins_witness :
    (1 : Nat) ≠ 2 ∧
    (buildManagedRangeValues [(1, ⟨0, 5⟩), (2, ⟨0, 5⟩)] = ([(⟨0, 5⟩, 1)], [(2, 1)]) ∧
     ((⟨0, 5⟩ : LiveRange), (1 : Nat)) ≠ (⟨0, 5⟩, 2)) :=
  ⟨by decide, duplicate_range_key_warns_and_earlier_value_wins 1 2 ⟨0, 5⟩ (by decide)⟩

/-- Graph nodes, restricted to what the planner observes or inserts:
ordinary operator nodes (an identifier plus the identifiers of their output
values), and the synthetic nodes the rewriter creates.  The device, dtype,
sizes and strides attributes come from external type queries
(`pickDeviceType`, `getSizesStrides`) and take part in no decision made by
this file's code, so they are not carried. -/
inductive GNode where
  | op (id : Nat) (outputs : List Nat)
  | allocateStorage (total_size : Int)
  | allocateTensor (offset size : Int)
  | preAllocateTensor (offset size : Int)
  | collect (inputs : Nat)
deriving DecidableEq

/-- The graph: its node list in schedule order and its output value
identifiers. -/
structure Graph where
  nodes : List GNode
  outputs : List Nat
deriving DecidableEq

/-- `insertAllocStorageNode` (memory_planning.cpp lines 147-161):
`storage->insertBefore(graph->nodes().front())` prepends the storage node. -/
def insertAllocStorageNode (g : Graph) (total_size : Int) : Graph :=
  ⟨GNode.allocateStorage total_size :: g.nodes, g.outputs⟩

/-- `allocations_map[lvr]`: `operator[]` on the hash map default-constructs
`MemRegion{0, 0}` when the range is absent. -/
def lookupAllocationsMap (allocations : List MemAllocation) (lvr : LiveRange) : MemRegion :=
  match allocations.find? (fun a => decide (a.lvr = lvr)) with
  | some a => a.reg
  | none => ⟨0, 0⟩

/-- Grouping step of `collectLiveRangesPerNode` (memory_planning.cpp lines
385-392): append each live range to its frame node's bucket. -/
def addGroup : List (FrameNode × List LiveRange) → FrameNode → LiveRange →
    List (FrameNode × List LiveRange)
  | [], fid, lvr => [(fid, [lvr])]
  | (f, ls) :: rest, fid, lvr =>
    if f = fid then (f, ls ++ [lvr]) :: rest else (f, ls) :: addGroup rest fid lvr

/-- Insertion step of a `std::sort` by `live_range_start_cmp`. -/
def insLR (x : LiveRange) : List LiveRange → List LiveRange
  | [] => [x]
  | y :: ys => if live_range_start_cmp x y then x :: y :: ys else y :: insLR x ys

/-- `std::sort(lvrs.begin(), lvrs.end(), live_range_start_cmp())`. -/
def sortLR (l : List LiveRange) : List LiveRange :=
  l.foldr insLR []

/-- Insertion step of a `std::sort` by `frame_node_id_cmp` (compares `pc`). -/
def insGroup (x : FrameNode × List LiveRange) :
    List (FrameNode × List LiveRange) → List (FrameNode × List LiveRange)
  | [] => [x]
  | y :: ys => if x.1.pc < y.1.pc then x :: y :: ys else y :: insGroup x ys

/-- `std::sort(..., frame_node_id_cmp())`. -/
def sortGroups (l : List (FrameNode × List LiveRange)) :
    List (FrameNode × List LiveRange) :=
  l.foldr insGroup []

/-- `collectLiveRangesPerNode` from memory_planning.cpp lines 382-406:
group the `(live range, frame node)` headers per frame node, sort each
bucket by range start and the buckets by `pc`. -/
def collectLiveRangesPerNode (live_range_node_header : List (LiveRange × FrameNode)) :
    List (FrameNode × List LiveRange) :=
  sortGroups
    ((live_range_node_header.foldl (fun acc p => addGroup acc p.2 p.1) []).map
      (fun p => (p.1, sortLR p.2)))

/-- `alloc->insertBefore(node)` for the trace path: the new node goes right
before the (first) operator node carrying the frame node's identifier; a
frame node always names a node of the graph, so the fallback append is
unreachable in practice. -/
def insertBeforeNode (nodes : List GNode) (target : Nat) (n : GNode) : List GNode :=
  match nodes with
  | [] => [n]
  | GNode.op i outs :: rest =>
    if i = target then n :: GNode.op i outs :: rest
    else GNode.op i outs :: insertBeforeNode rest target n
  | m :: rest => m :: insertBeforeNode rest target n

/-- `insertPreAllocTensorNodes` from memory_planning.cpp lines 208-252: sort
the collected buckets by `pc` (the function sorts its input again), each
bucket's ranges by start, and insert one `prim::PreAllocateTensor` node per
range before the bucket's node.  Also counts the inserted nodes (the source
collects them in `inserted_alloc_nodes`). -/
def insertPreAllocTensorNodes (g : Graph) (allocations : List MemAllocation)
    (collected : List (FrameNode × List LiveRange)) : Graph × Nat :=
  (sortGroups collected).foldl
    (fun acc item =>
      (sortLR item.2).foldl
        (fun acc2 lvr =>
          (⟨insertBeforeNode acc2.1.nodes item.1.node
              (GNode.preAllocateTensor (lookupAllocationsMap allocations lvr).offset
                (lookupAllocationsMap allocations lvr).size),
            acc2.1.outputs⟩,
           acc2.2 + 1))
        acc)
    (g, 0)

/-- `insertCollectAllocatedTensorsNode` from memory_planning.cpp lines
474-482: a `prim::Constant` holding the inserted allocation nodes, placed
before the return node — i.e. at the end of the node list. -/
def insertCollectAllocatedTensorsNode (g : Graph) (count : Nat) : Graph :=
  ⟨g.nodes ++ [GNode.collect count], g.outputs⟩

/- Strategy (memory_planning.h): a C++ enum class over an integer type; a
switch on it can receive any integer value, so the embedding carries the
underlying code. -/
namespace Strategy

def NAIVE : Nat := 0

def LINEAR_SCAN : Nat := 1

def GREEDY_BY_SIZE : Nat := 2

def GREEDY_BY_SIZE_WITH_FIRST_GAP : Nat := 3

def GREEDY_BY_LONGEST_AND_SIZE : Nat := 4

def GREEDY_BY_BREADTH : Nat := 5

end Strategy

/-- `planMemoryWithTracing` from memory_planning.cpp lines 484-527.  The
`linearScanHeuristic` and `greedyBySize` packers live in headers outside
this repository and are taken as arguments; the claims settled here hold
for every instantiation.  `TORCH_INTERNAL_ASSERT(!mem_events.empty())` and
a failing `getManagedLiveRangesFromMemEvents` are `none`; the `default:
return;` of the strategy switch leaves the graph untouched and reports
nothing. -/
def planMemoryWithTracing
    (linearScanHeuristic greedyBySize : List (LiveRange × Int) → List MemAllocation)
    (strat : Nat) (mem_events : List MemEvent) (g : Graph) : Option Graph :=
  if mem_events.isEmpty then none
  else
    match getManagedLiveRangesFromMemEvents mem_events g.outputs with
    | none => none
    | some (managed_live_ranges, live_range_node_header) =>
      let allocationsOpt : Option (List MemAllocation) :=
        match strat with
        | 0 => some (naive managed_live_ranges)
        | 1 => some (linearScanHeuristic managed_live_ranges)
        | 2 => some (greedyBySize managed_live_ranges)
        | _ => none
      match allocationsOpt with
      | none => some g
      | some allocations =>
        let total_size := getTotalAllocationSize allocations
        let g1 := insertAllocStorageNode g total_size
        let collected := collectLiveRangesPerNode live_range_node_header
        let gc := insertPreAllocTensorNodes g1 allocations collected
        some (insertCollectAllocatedTensorsNode gc.1 gc.2)

/-- `managed_live_ranges[lvr] = size`: `operator[]` on the hash map keyed by
the live range overwrites a present entry. -/
def assocSetRange : List (LiveRange × Int) → LiveRange → Int → List (LiveRange × Int)
  | [], lvr, s => [(lvr, s)]
  | (k, v) :: rest, lvr, s =>
    if k = lvr then (k, s) :: rest else (k, v) :: assocSetRange rest lvr s

/-- The map-building loop of `planMemory` (memory_planning.cpp lines
536-540): `managed_live_ranges[managed_value_ranges[item.first]] =
item.second`, where the inner `operator[]` default-constructs a zero range
for a value without a recorded range. -/
def buildManagedLiveRanges (managed_value_sizes : List (Nat × Int))
    (managed_value_ranges : List (Nat × LiveRange)) : List (LiveRange × Int) :=
  managed_value_sizes.foldl
    (fun acc p =>
      assocSetRange acc
        (match managed_value_ranges.find? (fun q => decide (q.1 = p.1)) with
         | some q => q.2
         | none => ⟨0, 0⟩)
        p.2)
    []

/-- `alloc->insertBefore(node)` for the static path, where `node` is the
producer of the managed value: the new node goes right before the first
operator node listing the value among its outputs. -/
def insertBeforeProducer (nodes : List GNode) (v : Nat) (n : GNode) : List GNode :=
  match nodes with
  | [] => [n]
  | GNode.op i outs :: rest =>
    if outs.contains v then n :: GNode.op i outs :: rest
    else GNode.op i outs :: insertBeforeProducer rest v n
  | m :: rest => m :: insertBeforeProducer rest v n

/-- `insertAllocTensorNodes` from memory_planning.cpp lines 163-206: one
`prim::AllocateTensor` per managed `(range, value)` entry, placed before the
value's producer; the `TORCH_CHECK(region.offset + region.size <=
total_size)` is the `none` branch. -/
def insertAllocTensorNodes (g : Graph) (total_size : Int)
    (allocations : List MemAllocation)
    (managed_range_values : List (LiveRange × Nat)) : Option Graph :=
  match managed_range_values with
  | [] => some g
  | (lvr, v) :: rest =>
    if (lookupAllocationsMap allocations lvr).offset +
        (lookupAllocationsMap allocations lvr).size ≤ total_size then
      insertAllocTensorNodes
        ⟨insertBeforeProducer g.nodes v
            (GNode.allocateTensor (lookupAllocationsMap allocations lvr).offset
              (lookupAllocationsMap allocations lvr).size),
          g.outputs⟩
        total_size allocations rest
    else none

/-- `planMemory` from memory_planning.cpp lines 529-602.  The liveness
analysis (`getManagedStuff`, built on the external alias and liveness
passes) is summarised by its three results, passed in as arguments, and the
five packers living outside this repository are likewise arguments; the
claims settled here hold for every instantiation.  The
`TORCH_INTERNAL_ASSERT(validateAllocations(...))` is the `none` branch; an
unknown strategy returns with the allocation vector still empty and the
graph untouched. -/
def planMemory
    (linearScanHeuristic greedyBySize greedyBySizeWithFirstGap
      greedyBySizeAndLongestWithFirstGap : List (LiveRange × Int) → List MemAllocation)
    (greedyByOperatorBreadth :
      List (Nat × Int) → List (Nat × LiveRange) → List Nat → List MemAllocation)
    (out_nodes : List Nat) (managed_value_sizes : List (Nat × Int))
    (managed_value_ranges : List (Nat × LiveRange))
    (strat : Nat) (g : Graph) : Option (Graph × List MemAllocation) :=
  let managed_live_ranges := buildManagedLiveRanges managed_value_sizes managed_value_ranges
  let allocationsOpt : Option (List MemAllocation) :=
    match strat with
    | 0 => some (naive managed_live_ranges)
    | 1 => some (linearScanHeuristic managed_live_ranges)
    | 2 => some (greedyBySize managed_live_ranges)
    | 3 => some (greedyBySizeWithFirstGap managed_live_ranges)
    | 4 => some (greedyBySizeAndLongestWithFirstGap managed_live_ranges)
    | 5 => some (greedyByOperatorBreadth managed_value_sizes managed_value_ranges out_nodes)
    | _ => none
  match allocationsOpt with
  | none => some (g, [])
  | some allocations =>
    match validateAllocations allocations with
    | some true =>
      match insertAllocTensorNodes (insertAllocStorageNode g (getTotalAllocationSize allocations))
          (getTotalAllocationSize allocations) allocations
          (buildManagedRangeValues managed_value_ranges).1 with
      | some g2 => some (g2, allocations)
      | none => none
    | _ => none

/-- A frame node at pc 0 for operator node 0, which produces no outputs. -/
def sampleFrame : FrameNode := ⟨0, 0, []⟩

/-- A minimal valid trace: one 32-byte allocation at time 1 freed at time 2. -/
def sampleEvents : List MemEvent :=
  [⟨1, 0, 32, EventType.Allocate, some sampleFrame⟩,
   ⟨2, 0, 32, EventType.Free, none⟩]

/-- A one-node graph whose node 0 produces value 7, the graph output. -/
def sampleGraph : Graph := ⟨[GNode.op 0 [7]], [7]⟩

/-- C8 counterexample: called with `GREEDY_BY_SIZE_WITH_FIRST_GAP`,
`GREEDY_BY_LONGEST_AND_SIZE` or `GREEDY_BY_BREADTH` on a valid non-empty
trace, `planMemoryWithTracing` returns normally with the graph unchanged —
the `default: return;` of its switch — flagging nothing to the caller
(a flagged error would be the `none` outcome, a fatal assertion). -/
theorem unsupported_trace_strategy_silently_ignored :
    planMemoryWithTracing naive naive Strategy.GREEDY_BY_SIZE_WITH_FIRST_GAP
      sampleEvents sampleGraph = some sampleGraph ∧
    planMemoryWithTracing naive naive Strategy.GREEDY_BY_LONGEST_AND_SIZE
      sampleEvents sampleGraph = some sampleGraph ∧
    planMemoryWithTracing naive naive Strategy.GREEDY_BY_BREADTH
      sampleEvents sampleGraph = some sampleGraph := by
  refine ⟨by decide, by decide, by decide⟩

/-- C8 (amended): the trace-driven entry point supports only NAIVE,
LINEAR_SCAN and GREEDY_BY_SIZE — on the sample trace each of the three
plans successfully and changes the graph — while for the other three
strategies it silently returns with the graph unchanged and no error
reported to the caller (for every instantiation of the external packers). -/
theorem planMemoryWithTracing_supports_three_strategies :
    (∀ (ls gbs : List (LiveRange × Int) → List MemAllocation) (events : List MemEvent)
        (g : Graph) (strat : Nat),
        events ≠ [] →
        (getManagedLiveRangesFromMemEvents events g.outputs).isSome = true →
        (strat = Strategy.GREEDY_BY_SIZE_WITH_FIRST_GAP ∨
         strat = Strategy.GREEDY_BY_LONGEST_AND_SIZE ∨
         strat = Strategy.GREEDY_BY_BREADTH) →
        planMemoryWithTracing ls gbs strat events g = some g) ∧
    ((planMemoryWithTracing naive naive Strategy.NAIVE sampleEvents sampleGraph).isSome = true ∧
      planMemoryWithTracing naive naive Strategy.NAIVE sampleEvents sampleGraph ≠
        some sampleGraph) ∧
    ((planMemoryWithTracing naive naive Strategy.LINEAR_SCAN sampleEvents
        sampleGraph).isSome = true ∧
      planMemoryWithTracing naive naive Strategy.LINEAR_SCAN sampleEvents sampleGraph ≠
        some sampleGraph) ∧
    ((planMemoryWithTracing naive naive Strategy.GREEDY_BY_SIZE sampleEvents
        sampleGraph).isSome = true ∧
      planMemoryWithTracing naive naive Strategy.GREEDY_BY_SIZE sampleEvents sampleGraph ≠
        some sampleGraph) := by
  refine ⟨?_, ⟨by decide, by decide⟩, ⟨by decide, by decide⟩, ⟨by decide, by decide⟩⟩
  intro ls gbs events g strat hne hok hstrat
  obtain ⟨e, rest, rfl⟩ : ∃ e rest, events = e :: rest := by
    cases events with
    | nil => exact absurd rfl hne
    | cons e rest => exact ⟨e, rest, rfl⟩
  obtain ⟨pair, hpair⟩ := Option.isSome_iff_exists.mp hok
  obtain ⟨mlr, hdr⟩ := pair
  rcases hstrat with rfl | rfl | rfl <;>
    · rw [planMemoryWithTracing, hpair]
      rfl

/-- C8 witness: the amended statement applied at the sample trace with
strategy GREEDY_BY_SIZE_WITH_FIRST_GAP. -/
theorem planMemoryWithTracing_supports_three_strategies_witness :
    (sampleEvents ≠ [] ∧
      (getManagedLiveRangesFromMemEvents sampleEvents sampleGraph.outputs).isSome = true) ∧
    planMemoryWithTracing naive naive Strategy.GREEDY_BY_SIZE_WITH_FIRST_GAP
      sampleEvents sampleGraph = some sampleGraph :=
  ⟨⟨by decide, by decide⟩,
   planMemoryWithTracing_supports_three_strategies.1 naive naive sampleEvents sampleGraph
     Strategy.GREEDY_BY_SIZE_WITH_FIRST_GAP (by decide) (by decide) (Or.inl rfl)⟩

/-- C9: with a strategy value outside the six known ones, `planMemory` hits
the `default: return;` before validation and before any node insertion: it
returns the untouched graph and the still-empty allocation vector, for every
instantiation of the external packers and liveness results. -/
theorem planMemory_unknown_strategy_is_noop
    (linearScanHeuristic greedyBySize greedyBySizeWithFirstGap
      greedyBySizeAndLongestWithFirstGap : List (LiveRange × Int) → List MemAllocation)
    (greedyByOperatorBreadth :
      List (Nat × Int) → List (Nat × LiveRange) → List Nat → List MemAllocation)
    (out_nodes : List Nat) (managed_value_sizes : List (Nat × Int))
    (managed_value_ranges : List (Nat × LiveRange))
    (strat : Nat) (g : Graph) (h : 5 < strat) :
    planMemory linearScanHeuristic greedyBySize greedyBySizeWithFirstGap
      greedyBySizeAndLongestWithFirstGap greedyByOperatorBreadth
      out_nodes managed_value_sizes managed_value_ranges strat g = some (g, []) := by
  obtain ⟨k, rfl⟩ : ∃ k, strat = k + 6 := ⟨strat - 6, by omega⟩
  rfl

/-- C9 witness: strategy code 6 (one past GREEDY_BY_BREADTH) on a concrete
graph. -/
theorem planMemory_unknown_strategy_is_noop_witness :
    5 < 6 ∧
    planMemory naive naive naive naive (fun _ _ _ => []) [] [] [] 6 sampleGraph =
      some (sampleGraph, []) :=
  ⟨by decide,
   planMemory_unknown_strategy_is_noop naive naive naive naive (fun _ _ _ => [])
     [] [] [] 6 sampleGraph (by decide)⟩

/-- C3 counterexample: two managed ranges `[0,5]` and `[0,9]`, both of size
64, share their `begin`.  The `std::map` that `naive` builds is keyed by
`live_range_start_cmp`, which compares `begin` only, so the second entry is
equivalent to the first and `insert` drops it: only one allocation comes
out, the total is 64, while the claim's "sum of all aligned sizes" is 128.
The claimed exact-total equality is therefore false without the
distinct-`begin` hypothesis. -/
theorem naive_duplicate_begin_drops_entry :
    naive [(⟨0, 5⟩, 64), (⟨0, 9⟩, 64)] = [⟨⟨0, 5⟩, ⟨0, 64⟩⟩] ∧
    getTotalAllocationSize (naive [(⟨0, 5⟩, 64), (⟨0, 9⟩, 64)]) = 64 ∧
    ([((⟨0, 5⟩ : LiveRange), (64 : Int)), (⟨0, 9⟩, 64)].map
      (fun p => computeAlignedTensorSize p.2)).sum = 128 ∧
    (64 : Int) ≠ 128 := by
  refine ⟨by decide, by decide, by decide, by decide⟩
